import Mathlib

/-!
Verification of the FloodFillMMS maze-solving engine.

Shallow embedding of the navigation core: the `DIRECTIONS` enum and the
direction-vector `mapping` (src/utils/api.py, src/utils/floodfill.py), the
memoized `neighbors` computation, the per-cell wall model, the flood-field
relaxation `floodfill_all`, the greedy selection `find_cell`, the movement
translator `move`, the wall-sensing update `update_walls`, the path optimizer
`cut_redundant_steps`, the exploration loop `run` (src/utils/floodfill.py,
src/utils/astar.py, src/utils/dfs.py) and the boolean response parsing of
`Mouse.command` (src/utils/api.py).

Stateful loops are embedded as fuel-indexed step functions returning `Option`
(`none` covers both a raised Python exception and fuel exhaustion); machine
integers are `Int` (Python ints are unbounded); Python lists are `List`,
dicts keyed by cells are association lists.
-/

namespace FloodFillMMS

/-- A maze cell, a Python `(int, int)` tuple (`PointType`). -/
abbrev Cell := Int × Int

/-- The `DIRECTIONS` IntEnum of src/utils/api.py (EAST=1, SOUTH=2, WEST=3, NORTH=4). -/
inductive DIRECTIONS where
  | EAST
  | SOUTH
  | WEST
  | NORTH
deriving DecidableEq, Repr, BEq

/-- The integer value of a `DIRECTIONS` member (src/utils/api.py lines 20-24). -/
def DIRECTIONS.val : DIRECTIONS → Int
  | .EAST => 1
  | .SOUTH => 2
  | .WEST => 3
  | .NORTH => 4

/-- The `DIRECTIONS(value)` enum constructor: `some` member for 1..4,
`none` models the `ValueError` failure branch for any other value. -/
def DIRECTIONS.ofInt? : Int → Option DIRECTIONS
  | 1 => some .EAST
  | 2 => some .SOUTH
  | 3 => some .WEST
  | 4 => some .NORTH
  | _ => none

/-- The class attribute `mapping` shared by FloodFill, AStar and DFS:
EAST ↦ (0,1), SOUTH ↦ (1,0), WEST ↦ (0,-1), NORTH ↦ (-1,0). -/
def mapping : DIRECTIONS → Int × Int
  | .EAST => (0, 1)
  | .SOUTH => (1, 0)
  | .WEST => (0, -1)
  | .NORTH => (-1, 0)

/-- The keys of `mapping` in Python dict insertion order. -/
def dirList : List DIRECTIONS := [.EAST, .SOUTH, .WEST, .NORTH]

/-- The four cross offsets produced by the `i, j` double loop of `neighbors`
(src/utils/floodfill.py lines 85-89) in scan order: only offsets with exactly
one nonzero component survive `not all((i, j)) and any((i, j))`. -/
def crossOffsets : List (Int × Int) := [(-1, 0), (0, -1), (0, 1), (1, 0)]

/-- `neighbors(cell)`: the in-bounds non-diagonal neighbours of a cell in scan
order (src/utils/floodfill.py lines 77-90; identical in astar.py and dfs.py).
The bounds test is the source's `0 <= x < self.w and 0 <= y < self.h`. -/
def neighbors (w h : Int) (c : Cell) : List Cell :=
  (crossOffsets.filter
    (fun d => decide (0 ≤ c.1 + d.1 ∧ c.1 + d.1 < w ∧ 0 ≤ c.2 + d.2 ∧ c.2 + d.2 < h))).map
    (fun d => (c.1 + d.1, c.2 + d.2))

/-- The `walls` dict of every strategy: a Python dict from a cell to the list
of its recorded blocked neighbours, modelled as an association list. -/
abbrev WallsT := List (Cell × List Cell)

/-- `self.walls.get(cell, [])`. -/
def wallsGet (ws : WallsT) (c : Cell) : List Cell := (ws.lookup c).getD []

/-- `self.walls.setdefault(current, []).append(v)`: append to an existing
key's list, otherwise insert the key at the end with a one-element list. -/
def wallsAdd (ws : WallsT) (c v : Cell) : WallsT :=
  if (ws.lookup c).isSome then
    ws.map (fun p => if p.1 == c then (p.1, p.2 ++ [v]) else p)
  else ws ++ [(c, [v])]

/-- Read `self.flood[cell[0]][cell[1]]`; indices are in bounds at every
program access point (neighbour lists are bounds-filtered). -/
def fget (f : List (List Int)) (c : Cell) : Int :=
  (f.getD c.1.toNat []).getD c.2.toNat 0

/-- Write `self.flood[cell[0]][cell[1]] = v`. -/
def fset (f : List (List Int)) (c : Cell) (v : Int) : List (List Int) :=
  f.set c.1.toNat ((f.getD c.1.toNat []).set c.2.toNat v)

/-- The open (non-walled) neighbours used by `floodfill_all`:
`[i for i in self.neighbors(cell) if i not in walls]`. -/
def openNbrs (w h : Int) (walls : WallsT) (c : Cell) : List Cell :=
  (neighbors w h c).filter (fun x => decide (x ∉ wallsGet walls c))

/-- The body of `floodfill_all` (src/utils/floodfill.py lines 116-135) as a
fuel-indexed stepper over the pair (flood matrix, LIFO stack; `deque.pop`
pops the right end, modelled as the list head with `extend` pushing the
reversed neighbour list).  Each unit of fuel performs one pop; `none` models
the `ValueError` of `min([])` when every neighbour of the popped cell is
walled, or fuel running out with work remaining. -/
def floodSteps (w h : Int) (walls : WallsT) :
    Nat → List (List Int) × List Cell → Option (List (List Int) × List Cell)
  | 0, s => some s
  | _ + 1, (f, []) => some (f, [])
  | n + 1, (f, c :: rest) =>
    let nbrs := openNbrs w h walls c
    match (nbrs.map (fget f)).min? with
    | none => none
    | some m =>
      if fget f c ≤ m then floodSteps w h walls n (fset f c (m + 1), nbrs.reverse ++ rest)
      else floodSteps w h walls n (f, rest)

/-- A complete `floodfill_all(cell)` call: run the stepper until the stack
drains; `none` when the loop crashes or does not finish within the fuel. -/
def floodRun (w h : Int) (walls : WallsT) (fuel : Nat)
    (f : List (List Int)) (stack : List Cell) : Option (List (List Int)) :=
  match floodSteps w h walls fuel (f, stack) with
  | some (f', []) => some f'
  | _ => none

/-- A physical command issued to the mouse by `move`. -/
inductive Cmd where
  | turnLeftCmd
  | turnRightCmd
  | forwardCmd
deriving DecidableEq, Repr, BEq

/-- `next_orient = [k for k, v in self.mapping.items() if v == diff][0]`:
`none` models the `IndexError` when the difference vector is not one of the
four unit direction vectors (src/utils/floodfill.py line 182). -/
def nextOrientOfDiff (d : Int × Int) : Option DIRECTIONS :=
  (dirList.filter (fun k => mapping k == d)).head?

/-- `({orient_diff, orient_diff + 4} & set(range(1, 5))).pop()`: for the
orientation differences arising from two members of `DIRECTIONS` (range -3..3)
the intersection is a singleton; it is the difference itself when already in
1..4, otherwise the difference plus 4. -/
def checkVal (d : Int) : Int := if 1 ≤ d ∧ d ≤ 4 then d else d + 4

/-- The `match check` arm of `move`: turn commands issued before the single
`move_forward` (src/utils/floodfill.py lines 185-197). -/
def turnCmds : DIRECTIONS → List Cmd
  | .NORTH => []
  | .EAST => [.turnRightCmd]
  | .WEST => [.turnLeftCmd]
  | .SOUTH => [.turnLeftCmd, .turnLeftCmd]

/-- The shared core of `move` in FloodFill, AStar and DFS: from the facing
`orient` at `current` toward `target`, the issued command list and the stored
orientation `DIRECTIONS(self.orient + orient_diff)` afterwards.  `none`
models the `IndexError`/`ValueError` failure branches. -/
def moveCore (orient : DIRECTIONS) (current target : Cell) : Option (List Cmd × DIRECTIONS) :=
  let diff := (target.1 - current.1, target.2 - current.2)
  match nextOrientOfDiff diff with
  | none => none
  | some no =>
    let od := no.val - orient.val
    match DIRECTIONS.ofInt? (checkVal od), DIRECTIONS.ofInt? (orient.val + od) with
    | some chk, some no2 => some (turnCmds chk ++ [.forwardCmd], no2)
    | _, _ => none

/-- The position/orientation state mutated by `move`. -/
structure MoveState where
  current : Cell
  orient : DIRECTIONS
deriving DecidableEq, Repr

/-- `FloodFill.move(cell)` (src/utils/floodfill.py lines 171-199): it has no
guard, so the command sequence is issued unconditionally and `none` models the
`IndexError` crash when the target is not grid-adjacent (including
`cell == self.current`, whose difference vector `(0, 0)` matches no
direction). -/
def ffMove (st : MoveState) (target : Cell) : Option (List Cmd × MoveState) :=
  (moveCore st.orient st.current target).map (fun p => (p.1, ⟨target, p.2⟩))

/-- `AStar.move` / `DFS.move` (src/utils/astar.py lines 132-163,
src/utils/dfs.py lines 64-95): a silent no-op returning with no commands when
the target equals the current cell or lies in the current cell's recorded
blocked list, otherwise the shared movement core. -/
def guardedMove (walls : WallsT) (st : MoveState) (target : Cell) :
    Option (List Cmd × MoveState) :=
  if target = st.current ∨ target ∈ wallsGet walls st.current then some ([], st)
  else ffMove st target

/-- `DIRECTIONS(self.orient - 1 if self.orient > 1 else 4)`: the integer fed
to the enum constructor for a sensed left wall. -/
def leftDirVal (o : DIRECTIONS) : Int := if o.val > 1 then o.val - 1 else 4

/-- `DIRECTIONS(self.orient + 1 if self.orient < 4 else 1)`: the integer fed
to the enum constructor for a sensed right wall. -/
def rightDirVal (o : DIRECTIONS) : Int := if o.val < 4 then o.val + 1 else 1

/-- The `walls` set built by `update_walls` from the three relative sensor
booleans; the Python set of `DIRECTIONS` members is modelled as a duplicate
free list iterated in left, front, right order. -/
def senseWalls (o : DIRECTIONS) (lw fw rw : Bool) : List DIRECTIONS :=
  (if lw then (DIRECTIONS.ofInt? (leftDirVal o)).toList else []) ++
    (if fw then [o] else []) ++
    (if rw then (DIRECTIONS.ofInt? (rightDirVal o)).toList else [])

/-- The shared recording loop of `update_walls`: for each sensed absolute
direction, the neighbouring cell is appended to the current cell's blocked
list when it is not already in the preread `c_walls` snapshot and is in
bounds (src/utils/floodfill.py lines 101-114). -/
def updateWallsCore (w h : Int) (ws : WallsT) (current : Cell) (o : DIRECTIONS)
    (lw fw rw : Bool) : WallsT :=
  let cWalls := wallsGet ws current
  (senseWalls o lw fw rw).foldl
    (fun acc d =>
      let v := mapping d
      let p := (current.1 + v.1, current.2 + v.2)
      if p ∉ cWalls ∧ 0 ≤ p.1 ∧ p.1 < w ∧ 0 ≤ p.2 ∧ p.2 < h then wallsAdd acc current p
      else acc)
    ws

/-- `FloodFill.update_walls` (src/utils/floodfill.py lines 92-114): it senses
and records unconditionally, with no early return. -/
def ffUpdateWalls (w h : Int) (ws : WallsT) (current : Cell) (o : DIRECTIONS)
    (lw fw rw : Bool) : WallsT :=
  updateWallsCore w h ws current o lw fw rw

/-- `AStar.update_walls` / `DFS.update_walls` (src/utils/astar.py lines
106-130, src/utils/dfs.py lines 38-62): `if self.current in self.walls:
return` guards the shared recording loop. -/
def guardedUpdateWalls (w h : Int) (ws : WallsT) (current : Cell) (o : DIRECTIONS)
    (lw fw rw : Bool) : WallsT :=
  if (ws.lookup current).isSome then ws
  else updateWallsCore w h ws current o lw fw rw

/-- The selection step of `find_cell` (src/utils/floodfill.py lines 156-162):
neighbours of `current` outside `ignore`, their flood values, the indices
attaining the minimum, the straight-ahead filter against `cell`, and
`neighbors[check[0] if check else indices[0]]`.  `none` models the
`ValueError` of `min([])` when every neighbour is ignored. -/
def selectNext (w h : Int) (f : List (List Int)) (orient : DIRECTIONS)
    (current cell : Cell) (ignore : List Cell) : Option Cell :=
  let nbrs := (neighbors w h current).filter (fun x => decide (x ∉ ignore))
  let nvals := nbrs.map (fget f)
  match nvals.min? with
  | none => none
  | some mv =>
    let indices := (List.range nbrs.length).filter (fun i => nvals.getD i 0 == mv)
    let ov := mapping orient
    let check := indices.filter (fun i =>
      ((nbrs.getD i (0, 0)).1 - cell.1 == ov.1) && ((nbrs.getD i (0, 0)).2 - cell.2 == ov.2))
    some (nbrs.getD (check.headD (indices.headD 0)) (0, 0))

/-- `FloodFill.find_cell(cell, ignore)` (src/utils/floodfill.py lines
137-169): pick the selection; if it is recorded as walled from `cell`,
re-flood, add it to the ignore set and recurse, otherwise re-flood when the
cell's value does not strictly exceed the selection's and return it together
with the possibly updated flood matrix.  Recursion depth and the inner
relaxation are fuelled; `none` models a crash or fuel exhaustion. -/
def findCell (w h : Int) (walls : WallsT) (orient : DIRECTIONS) (current : Cell)
    (floodFuel : Nat) :
    Nat → List (List Int) → Cell → List Cell → Option (List (List Int) × Cell)
  | 0, _, _, _ => none
  | rf + 1, f, cell, ignore =>
    match selectNext w h f orient current cell ignore with
    | none => none
    | some nc =>
      if nc ∈ wallsGet walls cell then
        match floodRun w h walls floodFuel f [cell] with
        | none => none
        | some f' => findCell w h walls orient current floodFuel rf f' cell (nc :: ignore)
      else
        if fget f cell ≤ fget f nc then
          (floodRun w h walls floodFuel f [cell]).map (fun f' => (f', nc))
        else some (f, nc)

/-- `steps[len(steps) - steps[::-1].index(current):]`: the suffix of the
remaining step list strictly after the last occurrence of `c`
(src/utils/floodfill.py line 213). -/
def dropThroughLast (c : Cell) (s : List Cell) : List Cell :=
  s.drop (s.length - s.reverse.findIdx (· == c))

/-- `FloodFill.cut_redundant_steps(steps)` (src/utils/floodfill.py lines
201-215): repeatedly take the first remaining cell; if it reoccurs later,
continue after its last occurrence. -/
def cutRedundantSteps : List Cell → List Cell
  | [] => []
  | c :: rest =>
    if c ∈ rest then c :: cutRedundantSteps (dropThroughLast c rest)
    else c :: cutRedundantSteps rest
termination_by s => s.length
decreasing_by
  · simp only [dropThroughLast, List.length_drop, List.length_cons]
    omega
  · simp only [List.length_cons]
    omega

/-- The boolean branch of `Mouse.command` (src/utils/api.py lines 96-105):
the response line is stripped and compared against `str(True).lower()`;
there is no failure branch for booleans. -/
def mouseParseBool (response : String) : Bool := response.trim == "true"

/-- Truncation toward zero of a rational, the behaviour of Python `int()` on
the exact float values arising in `generate_flood_matrix`. -/
def truncQ (q : ℚ) : Int := if 0 ≤ q then q.floor else -((-q).floor)

/-- `FloodFill.generate_flood_matrix` (src/utils/floodfill.py lines 56-74):
the closed-form pyramid built row by row from
`midpoint - abs(x - midpoint) + max(0, int(y - midpoint))`, with each row
(and finally the row list) truncated at `int(midpoint + 1)`, reversed and
mirrored.  The float arithmetic is exact at these values and is carried out
over `ℚ`. -/
def generateFloodMatrix (w h : Int) : List (List Int) :=
  let midpoint : ℚ := (w - 1) / 2
  let rows := (List.range h.toNat).map (fun y =>
    let row := (List.range w.toNat).map (fun x =>
      truncQ (midpoint - |(x : ℚ) - midpoint| +
        max 0 ((truncQ ((y : ℚ) - midpoint) : Int) : ℚ)))
    let r2 := (row.take (truncQ (midpoint + 1)).toNat).reverse
    r2 ++ r2.reverse)
  let m2 := rows.reverse.take (truncQ (midpoint + 1)).toNat
  m2 ++ m2.reverse

/-- The mutable state of a `FloodFill` instance used by `run`. -/
structure FFState where
  orient : DIRECTIONS
  current : Cell
  flood : List (List Int)
  walls : WallsT
  paths : List (Nat × List Cell)
deriving DecidableEq, Repr

/-- `self.paths[len(steps)] = steps` on the association-list model. -/
def pathsInsert (ps : List (Nat × List Cell)) (k : Nat) (v : List Cell) :
    List (Nat × List Cell) :=
  if (ps.lookup k).isSome then ps.map (fun p => if p.1 == k then (p.1, v) else p)
  else ps ++ [(k, v)]

/-- A sensor read relative to the current facing: the true maze is an oracle
`maze : Cell → DIRECTIONS → Bool` and an out-of-range enum value (provably
unreachable) reads as no wall. -/
def mazeSense (maze : Cell → DIRECTIONS → Bool) (c : Cell) : Option DIRECTIONS → Bool
  | some d => maze c d
  | none => false

/-- The `while self.flood[...]` loop of `FloodFill.run` (src/utils/floodfill.py
lines 229-235): sense walls, pick the next cell, move, append the step.  One
unit of fuel per iteration; the inner `find_cell` recursion depth is bounded
by the neighbour count plus one. -/
def ffRunLoop (w h : Int) (maze : Cell → DIRECTIONS → Bool) (floodFuel : Nat) :
    Nat → FFState → List Cell → Option (FFState × List Cell)
  | fuel, st, steps =>
    if fget st.flood st.current = 0 then some (st, steps)
    else
      match fuel with
      | 0 => none
      | fu + 1 =>
        let lw := mazeSense maze st.current (DIRECTIONS.ofInt? (leftDirVal st.orient))
        let fw := maze st.current st.orient
        let rw := mazeSense maze st.current (DIRECTIONS.ofInt? (rightDirVal st.orient))
        let walls' := ffUpdateWalls w h st.walls st.current st.orient lw fw rw
        match findCell w h walls' st.orient st.current floodFuel 5 st.flood st.current [] with
        | none => none
        | some (f', cell) =>
          match ffMove ⟨st.current, st.orient⟩ cell with
          | none => none
          | some (_, ms) =>
            ffRunLoop w h maze floodFuel fu
              ⟨ms.orient, ms.current, f', walls', st.paths⟩ (steps ++ [cell])

/-- `FloodFill.run` (src/utils/floodfill.py lines 217-239): run the
exploration loop, optimize the raw step list with `cut_redundant_steps` and
record it in `paths` keyed by its length. -/
def ffRun (w h : Int) (maze : Cell → DIRECTIONS → Bool) (floodFuel fuel : Nat)
    (st : FFState) : Option FFState :=
  (ffRunLoop w h maze floodFuel fuel st []).map (fun p =>
    let steps := cutRedundantSteps p.2
    { p.1 with paths := pathsInsert p.1.paths steps.length steps })

/-- The initial state built by `FloodFill.__init__` (src/utils/floodfill.py
lines 34-43): facing EAST at the origin with the pyramid flood matrix and no
recorded walls or paths. -/
def ffInit (w h : Int) : FFState :=
  ⟨.EAST, (0, 0), generateFloodMatrix w h, [], []⟩

/-- Modelled from the spec: the minimum turn sequence from facing `o` to
facing `d` — no turn when aligned, one turn when perpendicular (right for a
+90° difference, left for -90°), and the reversed case realized as two left
turns.  Compared against the command list `moveCore` actually issues. -/
def specMinTurnSeq (o d : DIRECTIONS) : List Cmd :=
  let t := (d.val - o.val).emod 4
  if t = 0 then []
  else if t = 1 then [.turnRightCmd]
  else if t = 2 then [.turnLeftCmd, .turnLeftCmd]
  else [.turnLeftCmd]

/-- A stable point of the flood field in the sense of the spec: running the
relaxation seeded at any in-bounds cell changes no field value. -/
def StablePoint (w h : Int) (walls : WallsT) (f : List (List Int)) : Prop :=
  ∀ c : Cell, 0 ≤ c.1 → c.1 < w → 0 ≤ c.2 → c.2 < h →
    ∀ (n : Nat) (r : List (List Int) × List Cell),
      floodSteps w h walls n (f, [c]) = some r → r.1 = f

/-- A 2x2 wall state: both neighbours of `(0, 0)` are recorded as blocked
from it (reachable by sensing front and right walls at the origin facing
East). -/
def walls7 : WallsT := [((0, 0), [(0, 1), (1, 0)])]

/-- A stable 2x2 field over `walls7` in which every nonzero cell equals
1 + the minimum open-neighbour value. -/
def flood7w : List (List Int) := [[0, 1], [1, 2]]

/-- A stable 2x2 field over `walls7` in which the nonzero cell `(1, 1)` has
value 3, strictly above 1 + its minimum open-neighbour value 1. -/
def flood7c : List (List Int) := [[0, 1], [1, 3]]

/-- The wall state of the C8 counterexample on a 4x4 grid: `(0, 1)` is
recorded as blocked from `(1, 1)` and `(2, 0)` as blocked from `(1, 0)`. -/
def wallsC8 : WallsT := [((1, 1), [(0, 1)]), ((1, 0), [(2, 0)])]

/-- The entry flood field of the C8 counterexample. -/
def floodC8 : List (List Int) := [[4, 0, 1, 7], [2, 2, 3, 7], [1, 9, 7, 7], [7, 7, 7, 7]]

/-- The flood field after the re-flood that `find_cell` performs inside the
C8 counterexample run. -/
def floodC8r : List (List Int) := [[4, 0, 1, 7], [5, 4, 3, 7], [1, 9, 7, 7], [7, 7, 7, 7]]

/-! ## Helper lemmas about the flood matrix representation -/

theorem fget_fset_self (f : List (List Int)) (c : Cell) (v : Int)
    (h1 : c.1.toNat < f.length) (h2 : c.2.toNat < (f.getD c.1.toNat []).length) :
    fget (fset f c v) c = v := by
  simp only [List.getD_eq_getElem?_getD] at h2
  simp only [fget, fset, List.getD_eq_getElem?_getD]
  rw [List.getElem?_set_self h1]
  simp only [Option.getD_some]
  rw [List.getElem?_set_self h2]
  rfl

theorem fget_fset_mono (f : List (List Int)) (c : Cell) (v : Int)
    (hv : fget f c ≤ v) (x : Cell) : fget f x ≤ fget (fset f c v) x := by
  simp only [fget, fset, List.getD_eq_getElem?_getD] at hv ⊢
  by_cases hr : x.1.toNat = c.1.toNat
  · rw [hr]
    by_cases hb1 : c.1.toNat < f.length
    · rw [List.getElem?_set_self hb1]
      simp only [Option.getD_some]
      by_cases hk : x.2.toNat = c.2.toNat
      · rw [hk]
        by_cases hb2 : c.2.toNat < (f[c.1.toNat]?.getD []).length
        · rw [List.getElem?_set_self hb2]
          simpa using hv
        · rw [List.set_eq_of_length_le (by omega)]
      · rw [List.getElem?_set_ne (fun he => hk he.symm)]
    · rw [List.set_eq_of_length_le (by omega)]
  · rw [List.getElem?_set_ne (fun he => hr he.symm)]

theorem floodSteps_nil (w h : Int) (walls : WallsT) (f : List (List Int)) :
    ∀ n, floodSteps w h walls n (f, []) = some (f, []) := by
  intro n
  cases n <;> rfl

theorem floodSteps_succ (w h : Int) (walls : WallsT) (n : Nat)
    (s : List (List Int) × List Cell) :
    floodSteps w h walls (n + 1) s =
      (floodSteps w h walls 1 s).bind (floodSteps w h walls n) := by
  rcases s with ⟨f, q⟩
  rcases q with _ | ⟨c, rest⟩
  · simp [floodSteps_nil]
  · simp only [floodSteps]
    rcases hm : ((openNbrs w h walls c).map (fget f)).min? with _ | m
    · rfl
    · by_cases hle : fget f c ≤ m <;> simp [hle, floodSteps]

/-! ## C1: flood relaxation monotonicity, bound and termination -/

/-- C1 (counterexample): on a 2x2 maze the constructor's flood matrix is all
zeros and `floodfill_all((0, 0))` from that reachable initial state neither
terminates within `width*height = 4` relaxation steps (the complete run with
fuel 4 fails and after 20 pops the stack is still nonempty) nor keeps the
field values bounded by `width*height` (cell `(1, 0)` reaches value 6). -/
theorem floodfill_2x2_unbounded_counterexample :
    generateFloodMatrix 2 2 = [[0, 0], [0, 0]] ∧
    floodRun 2 2 [] 4 [[0, 0], [0, 0]] [(0, 0)] = none ∧
    (floodSteps 2 2 [] 20 ([[0, 0], [0, 0]], [(0, 0)])).map
      (fun p => (fget p.1 (1, 0), p.2.isEmpty)) = some (6, false) := by
  refine ⟨by with_unfolding_all decide, by decide, by decide⟩

/-- C1 (amended): under any number of relaxation steps of `floodfill_all`,
from any wall/field state, no cell's field value ever decreases.  The other
two conjuncts of the claim (the `width*height` upper bound and termination
within `width*height` relaxation steps) are false, as the 2x2 counterexample
shows. -/
theorem floodSteps_monotone (w h : Int) (walls : WallsT) :
    ∀ (n : Nat) (s p : List (List Int) × List Cell),
      floodSteps w h walls n s = some p → ∀ x : Cell, fget s.1 x ≤ fget p.1 x := by
  intro n
  induction n with
  | zero =>
    intro s p hp x
    simp only [floodSteps, Option.some.injEq] at hp
    rw [← hp]
  | succ n ih =>
    intro s p hp x
    rcases s with ⟨f, q⟩
    rcases q with _ | ⟨c, rest⟩
    · simp only [floodSteps, Option.some.injEq] at hp
      rw [← hp]
    · simp only [floodSteps] at hp
      split at hp
      · simp at hp
      · rename_i m hm
        split at hp
        · rename_i hle
          have h1 := ih _ _ hp x
          have h2 := fget_fset_mono f c (m + 1) (by omega) x
          exact le_trans h2 h1
        · exact ih _ _ hp x

/-- Witness for `floodSteps_monotone` at a concrete terminating relaxation. -/
theorem floodSteps_monotone_witness :
    floodSteps 2 2 [] 3 ([[5, 0], [0, 0]], [(0, 0)]) = some ([[5, 0], [0, 0]], []) ∧
    fget [[5, 0], [0, 0]] (0, 0) ≤ fget [[5, 0], [0, 0]] (0, 0) :=
  ⟨by decide,
    floodSteps_monotone 2 2 [] 3 ([[5, 0], [0, 0]], [(0, 0)]) ([[5, 0], [0, 0]], [])
      (by decide) (0, 0)⟩

/-! ## C2: explorer termination and the recorded path -/

/-- C2 (failing input): on a 2x2 maze every cell lies in the centre goal
region, so the initial flood value at the start cell is 0; `FloodFill.run`
terminates immediately but records the empty path under key 0 instead of a
non-empty path ending in the goal region. -/
theorem ffRun_2x2_records_empty_path :
    ffRun 2 2 (fun _ _ => false) 5 1 (ffInit 2 2) =
      some ⟨.EAST, (0, 0), [[0, 0], [0, 0]], [], [(0, [])]⟩ ∧
    fget (ffInit 2 2).flood (0, 0) = 0 := by
  refine ⟨by with_unfolding_all decide, by with_unfolding_all decide⟩

/-! ## C4: wall sensing is a no-op once entries exist -/

/-- C4 (counterexample): `FloodFill.update_walls` has no early-return guard;
from a state where the current cell `(0, 0)` already has the recorded entry
`(0, 1)`, a sensed right wall appends `(1, 0)`, changing the wall model. -/
theorem ff_update_walls_resenses_counterexample :
    wallsGet [(((0, 0) : Cell), [((0, 1) : Cell)])] (0, 0) ≠ [] ∧
    ffUpdateWalls 2 2 [((0, 0), [(0, 1)])] (0, 0) .EAST false false true =
      [((0, 0), [(0, 1), (1, 0)])] ∧
    [(((0, 0) : Cell), [((0, 1) : Cell), ((1, 0) : Cell)])] ≠
      [(((0, 0) : Cell), [((0, 1) : Cell)])] := by
  refine ⟨by decide, by decide, by decide⟩

/-- C4 (amended): the at-most-once property holds for `AStar.update_walls`
and `DFS.update_walls`, whose `if self.current in self.walls: return` guard
makes the call leave the wall model unchanged whenever the current cell
already has recorded entries; `FloodFill.update_walls` has no such guard. -/
theorem guarded_update_walls_noop (w h : Int) (ws : WallsT) (current : Cell)
    (o : DIRECTIONS) (lw fw rw : Bool) (hc : (ws.lookup current).isSome) :
    guardedUpdateWalls w h ws current o lw fw rw = ws := by
  unfold guardedUpdateWalls
  rw [if_pos hc]

/-- Witness for `guarded_update_walls_noop` at a concrete sensed state. -/
theorem guarded_update_walls_noop_witness :
    (([(((0, 0) : Cell), [((0, 1) : Cell)])] : WallsT).lookup ((0, 0) : Cell)).isSome = true ∧
    guardedUpdateWalls 2 2 [((0, 0), [(0, 1)])] (0, 0) .EAST false false true =
      [((0, 0), [(0, 1)])] :=
  ⟨by decide, guarded_update_walls_noop 2 2 _ _ _ _ _ _ (by decide)⟩

/-! ## C5: move is a silent no-op on equal or walled targets -/

/-- C5 (counterexample): `FloodFill.move` has no guard; with the wall
`(0, 1)` recorded from the current cell `(0, 0)`, moving to the walled
adjacent target still issues a forward command and updates the position,
and moving to the current cell itself raises (the difference vector `(0, 0)`
matches no direction), rather than being a silent no-op. -/
theorem ff_move_not_noop_counterexample :
    ((0, 1) : Cell) ∈ wallsGet [(((0, 0) : Cell), [((0, 1) : Cell)])] (0, 0) ∧
    ffMove ⟨(0, 0), .EAST⟩ (0, 1) = some ([.forwardCmd], ⟨(0, 1), .EAST⟩) ∧
    ffMove ⟨(0, 0), .EAST⟩ (0, 0) = none := by
  refine ⟨by decide, by decide, by decide⟩

/-- C5 (amended): the silent no-op holds for `AStar.move` and `DFS.move`,
whose guard returns without issuing any command and without touching the
stored position or orientation whenever the target equals the current cell
or is in the current cell's blocked list; `FloodFill.move` has no guard. -/
theorem guarded_move_noop (walls : WallsT) (st : MoveState) (target : Cell)
    (hg : target = st.current ∨ target ∈ wallsGet walls st.current) :
    guardedMove walls st target = some ([], st) := by
  unfold guardedMove
  rw [if_pos hg]

/-- Witness for `guarded_move_noop` on a walled adjacent target. -/
theorem guarded_move_noop_witness :
    ((0, 1) : Cell) ∈ wallsGet [(((0, 0) : Cell), [((0, 1) : Cell)])] (0, 0) ∧
    guardedMove [((0, 0), [(0, 1)])] ⟨(0, 0), .EAST⟩ (0, 1) =
      some ([], ⟨(0, 0), .EAST⟩) :=
  ⟨by decide, guarded_move_noop _ _ _ (Or.inr (by decide))⟩

/-! ## C9: boolean response parsing -/

/-- C9 (counterexample): the boolean branch of `Mouse.command` maps the
response `"maybe"`, which is neither literal, to `false` instead of surfacing
a parse failure — a silent coercion. -/
theorem parse_bool_silently_coerces_counterexample :
    mouseParseBool "maybe" = false ∧ "maybe" ≠ "false" ∧ "maybe" ≠ "true" := by
  refine ⟨by with_unfolding_all decide, by decide, by decide⟩

/-- C9 (amended): the parse returns `true` exactly on the stripped literal
`"true"` and `false` on every other response, including `"false"`; no
response is ever surfaced as a failure (the function is total into `Bool`,
mirroring `response == str(True).lower()`). -/
theorem parse_bool_total (r : String) :
    (mouseParseBool r = true ↔ r.trim = "true") ∧
    (mouseParseBool r = false ↔ r.trim ≠ "true") := by
  constructor
  · simp [mouseParseBool]
  · simp [mouseParseBool]

/-! ## C3: minimum turn sequences, and C10: enum conversion safety -/

/-- C3: for any grid-adjacent move (the difference vector matches a direction
`d`), the issued commands are exactly the spec's minimum turn sequence from
the starting orientation to `d` followed by the single forward command, and
the stored orientation afterwards is `d`, the direction actually traveled;
in particular from `(1, 1)` facing East to the west neighbour `(1, 0)` the
engine issues two left-turn commands and one forward command and ends facing
West. -/
theorem move_minimum_turns (o d : DIRECTIONS) (c t : Cell)
    (hd : nextOrientOfDiff (t.1 - c.1, t.2 - c.2) = some d) :
    moveCore o c t = some (specMinTurnSeq o d ++ [.forwardCmd], d) ∧
    ffMove ⟨(1, 1), .EAST⟩ (1, 0) =
      some ([.turnLeftCmd, .turnLeftCmd, .forwardCmd], ⟨(1, 0), .WEST⟩) := by
  refine ⟨?_, by decide⟩
  cases o <;> cases d <;> simp only [moveCore] <;> rw [hd] <;> rfl

/-- Witness for `move_minimum_turns` at concrete scenario C. -/
theorem move_minimum_turns_witness :
    nextOrientOfDiff (((1, 0) : Cell).1 - ((1, 1) : Cell).1,
      ((1, 0) : Cell).2 - ((1, 1) : Cell).2) = some .WEST ∧
    moveCore .EAST (1, 1) (1, 0) = some (specMinTurnSeq .EAST .WEST ++ [.forwardCmd], .WEST) :=
  ⟨by decide, (move_minimum_turns .EAST .WEST (1, 1) (1, 0) (by decide)).1⟩

/-- C10: for any starting orientation and any target whose difference vector
matches a direction `d`, every integer fed to the `DIRECTIONS` enum
constructor inside `move` (the normalized turn selector and the final
`self.orient + orient_diff`) and inside `update_walls` (the left and right
relative directions) lies in {1, 2, 3, 4}, so the constructor's failure
branch is unreachable, and the orientation stored by `move` is again one of
the four directions, namely `d`. -/
theorem directions_conversions_safe (o d : DIRECTIONS) (c t : Cell)
    (hd : nextOrientOfDiff (t.1 - c.1, t.2 - c.2) = some d) :
    (1 ≤ checkVal (d.val - o.val) ∧ checkVal (d.val - o.val) ≤ 4 ∧
      (DIRECTIONS.ofInt? (checkVal (d.val - o.val))).isSome) ∧
    DIRECTIONS.ofInt? (o.val + (d.val - o.val)) = some d ∧
    (moveCore o c t).map Prod.snd = some d ∧
    (1 ≤ leftDirVal o ∧ leftDirVal o ≤ 4 ∧ (DIRECTIONS.ofInt? (leftDirVal o)).isSome) ∧
    (1 ≤ rightDirVal o ∧ rightDirVal o ≤ 4 ∧ (DIRECTIONS.ofInt? (rightDirVal o)).isSome) := by
  refine ⟨by cases o <;> cases d <;> decide, by cases o <;> cases d <;> decide, ?_,
    by cases o <;> decide, by cases o <;> decide⟩
  cases o <;> cases d <;> simp only [moveCore] <;> rw [hd] <;> rfl

/-- Witness for `directions_conversions_safe` at concrete scenario C. -/
theorem directions_conversions_safe_witness :
    nextOrientOfDiff (((1, 0) : Cell).1 - ((1, 1) : Cell).1,
      ((1, 0) : Cell).2 - ((1, 1) : Cell).2) = some .WEST ∧
    DIRECTIONS.ofInt? (DIRECTIONS.EAST.val + (DIRECTIONS.WEST.val - DIRECTIONS.EAST.val)) =
      some .WEST :=
  ⟨by decide, (directions_conversions_safe .EAST .WEST (1, 1) (1, 0) (by decide)).2.1⟩

/-! ## C6: the path optimizer -/

theorem dropThroughLast_sublist (c : Cell) (s : List Cell) : List.Sublist (dropThroughLast c s) s :=
  List.drop_sublist _ _

theorem not_mem_dropThroughLast (c : Cell) (s : List Cell) : c ∉ dropThroughLast c s := by
  intro hmem
  have hrt : dropThroughLast c s = (s.reverse.take (s.reverse.findIdx (· == c))).reverse := by
    have h1 : dropThroughLast c s = List.rtake s (s.reverse.findIdx (· == c)) := rfl
    rw [h1, List.rtake_eq_reverse_take_reverse]
  rw [hrt, List.mem_reverse, List.mem_iff_getElem?] at hmem
  obtain ⟨n, hn⟩ := hmem
  have hlt : n < s.reverse.findIdx (· == c) := by
    by_contra hge
    rw [List.getElem?_eq_none] at hn
    · exact Option.noConfusion hn
    · have := List.length_take (s.reverse.findIdx (· == c)) s.reverse
      omega
  rw [List.getElem?_take_of_lt hlt] at hn
  have hnl : n < s.reverse.length :=
    lt_of_lt_of_le hlt (List.findIdx_le_length _)
  rw [List.getElem?_eq_getElem hnl] at hn
  have hfalse := List.not_of_lt_findIdx hlt
  rw [Option.some_inj.mp hn] at hfalse
  simp at hfalse

theorem cutRedundantSteps_sublist (s : List Cell) : List.Sublist (cutRedundantSteps s) s := by
  induction s using cutRedundantSteps.induct with
  | case1 => simp [cutRedundantSteps]
  | case2 c rest hmem ih =>
    simp only [cutRedundantSteps, if_pos hmem]
    exact (ih.trans (dropThroughLast_sublist c rest)).cons₂ c
  | case3 c rest hmem ih =>
    simp only [cutRedundantSteps, if_neg hmem]
    exact ih.cons₂ c

theorem cutRedundantSteps_nodup (s : List Cell) : (cutRedundantSteps s).Nodup := by
  induction s using cutRedundantSteps.induct with
  | case1 => simp [cutRedundantSteps]
  | case2 c rest hmem ih =>
    simp only [cutRedundantSteps, if_pos hmem]
    refine List.nodup_cons.mpr ⟨?_, ih⟩
    intro hc
    exact not_mem_dropThroughLast c rest ((cutRedundantSteps_sublist _).subset hc)
  | case3 c rest hmem ih =>
    simp only [cutRedundantSteps, if_neg hmem]
    refine List.nodup_cons.mpr ⟨?_, ih⟩
    intro hc
    exact hmem ((cutRedundantSteps_sublist _).subset hc)

theorem cutRedundantSteps_of_nodup {s : List Cell} (h : s.Nodup) :
    cutRedundantSteps s = s := by
  induction s with
  | nil => simp [cutRedundantSteps]
  | cons c rest ih =>
    rcases List.nodup_cons.mp h with ⟨hc, hr⟩
    simp only [cutRedundantSteps, if_neg hc]
    rw [ih hr]

/-- C6: the path optimizer `cut_redundant_steps` is idempotent, its output
never contains a duplicate cell, its output is a subsequence of its input
(preserving order, hence first-occurrence order), and on the concrete
scenario-B list it elides the round trip through `(1, 0)`. -/
theorem cut_redundant_steps_correct :
    (∀ p : List Cell, cutRedundantSteps (cutRedundantSteps p) = cutRedundantSteps p) ∧
    (∀ p : List Cell, (cutRedundantSteps p).Nodup) ∧
    (∀ p : List Cell, List.Sublist (cutRedundantSteps p) p) ∧
    cutRedundantSteps [(0, 0), (1, 0), (0, 0), (0, 1)] = [(0, 0), (0, 1)] :=
  ⟨fun p => cutRedundantSteps_of_nodup (cutRedundantSteps_nodup p),
   cutRedundantSteps_nodup, cutRedundantSteps_sublist, by
    simp +decide [cutRedundantSteps, dropThroughLast, List.findIdx_cons, Bool.cond_eq_ite,
      beq_iff_eq, Prod.mk.injEq]⟩

/-! ## C7: the stable-point invariant -/

theorem stable_seed_steady (w h : Int) (walls : WallsT) (f : List (List Int)) (c : Cell)
    (h1 : floodSteps w h walls 1 (f, [c]) = some (f, [])) :
    ∀ (n : Nat) (r : List (List Int) × List Cell),
      floodSteps w h walls n (f, [c]) = some r → r.1 = f := by
  intro n r hr
  cases n with
  | zero =>
    simp only [floodSteps, Option.some.injEq] at hr
    rw [← hr]
  | succ n =>
    rw [floodSteps_succ, h1] at hr
    simp only [Option.some_bind] at hr
    rw [floodSteps_nil] at hr
    cases hr
    rfl

theorem stable_seed_crash (w h : Int) (walls : WallsT) (f : List (List Int)) (c : Cell)
    (h1 : floodSteps w h walls 1 (f, [c]) = none) :
    ∀ (n : Nat) (r : List (List Int) × List Cell),
      floodSteps w h walls n (f, [c]) = some r → r.1 = f := by
  intro n r hr
  cases n with
  | zero =>
    simp only [floodSteps, Option.some.injEq] at hr
    rw [← hr]
  | succ n =>
    rw [floodSteps_succ, h1] at hr
    simp at hr

theorem validCell_2x2 {c : Cell} (h1 : 0 ≤ c.1) (h2 : c.1 < 2) (h3 : 0 ≤ c.2)
    (h4 : c.2 < 2) : c = (0, 0) ∨ c = (0, 1) ∨ c = (1, 0) ∨ c = (1, 1) := by
  rcases c with ⟨a, b⟩
  simp only [Prod.mk.injEq]
  omega

theorem walls7_stable_w : StablePoint 2 2 walls7 flood7w := by
  intro c h1 h2 h3 h4
  rcases validCell_2x2 h1 h2 h3 h4 with h | h | h | h <;> subst h
  · exact stable_seed_crash 2 2 walls7 flood7w (0, 0) (by decide)
  · exact stable_seed_steady 2 2 walls7 flood7w (0, 1) (by decide)
  · exact stable_seed_steady 2 2 walls7 flood7w (1, 0) (by decide)
  · exact stable_seed_steady 2 2 walls7 flood7w (1, 1) (by decide)

theorem walls7_stable_c : StablePoint 2 2 walls7 flood7c := by
  intro c h1 h2 h3 h4
  rcases validCell_2x2 h1 h2 h3 h4 with h | h | h | h <;> subst h
  · exact stable_seed_crash 2 2 walls7 flood7c (0, 0) (by decide)
  · exact stable_seed_steady 2 2 walls7 flood7c (0, 1) (by decide)
  · exact stable_seed_steady 2 2 walls7 flood7c (1, 0) (by decide)
  · exact stable_seed_steady 2 2 walls7 flood7c (1, 1) (by decide)

/-- C7 (counterexample): `flood7c` is a stable point of the flood field over
the reachable wall state `walls7` (running the relaxation from every
in-bounds seed changes no value), yet the cell `(1, 1)` has the nonzero value
3, which differs from `1 + 1`, one plus the minimum field value among its
neighbours not recorded as walled from it. -/
theorem stable_point_not_exact_counterexample :
    StablePoint 2 2 walls7 flood7c ∧
    fget flood7c (1, 1) ≠ 0 ∧
    ((openNbrs 2 2 walls7 (1, 1)).map (fget flood7c)).min? = some 1 ∧
    fget flood7c (1, 1) ≠ 1 + 1 :=
  ⟨walls7_stable_c, by decide, by decide, by decide⟩

/-- C7 (amended): at any stable point of the flood field, every in-bounds
cell with nonzero value and at least one open neighbour has value at least
`1 + min(value of open neighbours)` — the relaxation's stopping condition
guarantees the lower bound, but not the equality the claim states, as the
counterexample shows. -/
theorem stable_point_lower_bound (w h : Int) (walls : WallsT) (f : List (List Int))
    (c : Cell) (m : Int)
    (h1 : 0 ≤ c.1) (h2 : c.1 < w) (h3 : 0 ≤ c.2) (h4 : c.2 < h)
    (hb1 : c.1.toNat < f.length) (hb2 : c.2.toNat < (f.getD c.1.toNat []).length)
    (_hnz : fget f c ≠ 0)
    (hm : ((openNbrs w h walls c).map (fget f)).min? = some m)
    (hs : StablePoint w h walls f) : m + 1 ≤ fget f c := by
  by_contra hlt
  have hle : fget f c ≤ m := by omega
  have hstep : floodSteps w h walls 1 (f, [c]) =
      some (fset f c (m + 1), (openNbrs w h walls c).reverse) := by
    simp only [floodSteps, hm, if_pos hle, List.append_nil]
  have hfix := hs c h1 h2 h3 h4 1 _ hstep
  have hv := fget_fset_self f c (m + 1) hb1 hb2
  simp only at hfix
  rw [hfix] at hv
  omega

/-- Witness for `stable_point_lower_bound` at the stable state `flood7w`. -/
theorem stable_point_lower_bound_witness :
    StablePoint 2 2 walls7 flood7w ∧
    fget flood7w (1, 1) ≠ 0 ∧
    ((openNbrs 2 2 walls7 (1, 1)).map (fget flood7w)).min? = some 1 ∧
    1 + 1 ≤ fget flood7w (1, 1) :=
  ⟨walls7_stable_w, by decide, by decide,
    stable_point_lower_bound 2 2 walls7 flood7w (1, 1) 1 (by decide) (by decide) (by decide)
      (by decide) (by decide) (by decide) (by decide) (by decide) walls7_stable_w⟩

/-! ## C8: the greedy next-cell selection -/

theorem headD_mem {α : Type} {l : List α} (h : l ≠ []) (d : α) : l.headD d ∈ l := by
  cases l with
  | nil => exact absurd rfl h
  | cons a t => simp

theorem int_min?_le {xs : List Int} {a : Int} (h : xs.min? = some a) :
    ∀ b ∈ xs, a ≤ b := by
  haveI : Std.Antisymm ((· : Int) ≤ ·) := ⟨fun h1 h2 => le_antisymm h1 h2⟩
  have h2 := (List.min?_eq_some_iff le_refl (fun x y => min_choice x y)
    (fun x y z => le_min_iff)).mp h
  exact h2.2

theorem int_min?_mem {xs : List Int} {a : Int} (h : xs.min? = some a) : a ∈ xs :=
  List.min?_mem (fun x y => min_choice x y) h

theorem selectNext_mem (w h : Int) (f : List (List Int)) (o : DIRECTIONS)
    (current cell : Cell) (ignore : List Cell) (nc : Cell)
    (hs : selectNext w h f o current cell ignore = some nc) :
    nc ∈ (neighbors w h current).filter (fun x => decide (x ∉ ignore)) ∧
    ∀ x ∈ (neighbors w h current).filter (fun x => decide (x ∉ ignore)),
      fget f nc ≤ fget f x := by
  simp only [selectNext] at hs
  split at hs
  · exact Option.noConfusion hs
  · rename_i mv hm
    set nbrs := (neighbors w h current).filter (fun x => decide (x ∉ ignore)) with hnbrs
    set nvals := nbrs.map (fget f) with hnvals
    set indices := (List.range nbrs.length).filter (fun i => nvals.getD i 0 == mv)
      with hindices
    have hidx : (((indices.filter (fun i =>
        ((nbrs.getD i (0, 0)).1 - cell.1 == (mapping o).1) &&
        ((nbrs.getD i (0, 0)).2 - cell.2 == (mapping o).2))).headD (indices.headD 0))) ∈
        indices := by
      rcases hc : indices.filter (fun i =>
        ((nbrs.getD i (0, 0)).1 - cell.1 == (mapping o).1) &&
        ((nbrs.getD i (0, 0)).2 - cell.2 == (mapping o).2)) with _ | ⟨j, t⟩
      · simp only [List.headD_nil]
        have hne : indices ≠ [] := by
          have hmv : mv ∈ nvals := int_min?_mem hm
          rw [List.mem_iff_getElem] at hmv
          obtain ⟨j, hj, hjv⟩ := hmv
          have hjlt : j < nbrs.length := by
            rw [List.length_map] at hj
            exact hj
          have hjmem : j ∈ indices := by
            rw [hindices, List.mem_filter]
            refine ⟨List.mem_range.mpr hjlt, ?_⟩
            have hje : nvals[j]?.getD 0 = mv := by
              rw [List.getElem?_eq_getElem hj, Option.getD_some, hjv]
            simp [hje]
          exact List.ne_nil_of_mem hjmem
        exact headD_mem hne 0
      · have hj : j ∈ indices := by
          have : j ∈ indices.filter (fun i =>
            ((nbrs.getD i (0, 0)).1 - cell.1 == (mapping o).1) &&
            ((nbrs.getD i (0, 0)).2 - cell.2 == (mapping o).2)) := by
            rw [hc]; exact List.mem_cons_self j t
          exact List.mem_of_mem_filter this
        simpa [hc] using hj
    set idx := ((indices.filter (fun i =>
        ((nbrs.getD i (0, 0)).1 - cell.1 == (mapping o).1) &&
        ((nbrs.getD i (0, 0)).2 - cell.2 == (mapping o).2))).headD (indices.headD 0))
      with hidxdef
    have hlt : idx < nbrs.length := by
      have := List.mem_of_mem_filter (hindices ▸ hidx)
      exact List.mem_range.mp this
    have hval : nvals.getD idx 0 = mv := by
      have := (List.mem_filter.mp (hindices ▸ hidx)).2
      exact beq_iff_eq.mp this
    have hnc : nc = nbrs.getD idx (0, 0) := (Option.some_inj.mp hs).symm
    have hget : nbrs.getD idx (0, 0) = nbrs.get ⟨idx, hlt⟩ := by
      rw [List.getD_eq_getElem?_getD, List.getElem?_eq_getElem hlt]
      rfl
    have hltv : idx < nvals.length := by
      rw [hnvals, List.length_map]
      exact hlt
    have hvnc : fget f nc = mv := by
      rw [hnc, hget]
      have hmape : nvals.get ⟨idx, hltv⟩ = fget f (nbrs.get ⟨idx, hlt⟩) := by
        simp [hnvals]
      rw [List.getD_eq_getElem?_getD, List.getElem?_eq_getElem hltv,
        Option.getD_some] at hval
      rw [← hval]
      exact hmape.symm
    constructor
    · rw [hnc, hget]
      exact List.get_mem nbrs idx hlt
    · intro x hx
      rw [hvnc]
      exact int_min?_le hm (fget f x) (List.mem_map_of_mem (fget f) hx)

theorem selectNext_straight (w h : Int) (f : List (List Int)) (o : DIRECTIONS)
    (current cell : Cell) (ignore : List Cell) (mv : Int)
    (hm : (((neighbors w h current).filter (fun x => decide (x ∉ ignore))).map
      (fget f)).min? = some mv)
    (hmem : (cell.1 + (mapping o).1, cell.2 + (mapping o).2) ∈
      (neighbors w h current).filter (fun x => decide (x ∉ ignore)))
    (hval : fget f (cell.1 + (mapping o).1, cell.2 + (mapping o).2) = mv) :
    selectNext w h f o current cell ignore =
      some (cell.1 + (mapping o).1, cell.2 + (mapping o).2) := by
  simp only [selectNext, hm]
  set nbrs := (neighbors w h current).filter (fun x => decide (x ∉ ignore)) with hnbrs
  set nvals := nbrs.map (fget f) with hnvals
  set indices := (List.range nbrs.length).filter (fun i => nvals.getD i 0 == mv)
    with hindices
  set sA := ((cell.1 + (mapping o).1, cell.2 + (mapping o).2) : Cell) with hsA
  rw [List.mem_iff_getElem] at hmem
  obtain ⟨iA, hiA, hiAv⟩ := hmem
  have hiAvals : iA < nvals.length := by
    rw [hnvals, List.length_map]
    exact hiA
  have hiAidx : iA ∈ indices := by
    rw [hindices, List.mem_filter]
    refine ⟨List.mem_range.mpr hiA, ?_⟩
    have hje0 : nvals.get ⟨iA, hiAvals⟩ = fget f (nbrs.get ⟨iA, hiA⟩) := by
      simp [hnvals]
    have hiAv2 : nbrs.get ⟨iA, hiA⟩ = sA := hiAv
    have hje : nvals[iA]?.getD 0 = mv := by
      rw [List.getElem?_eq_getElem hiAvals, Option.getD_some]
      calc nvals.get ⟨iA, hiAvals⟩ = fget f (nbrs.get ⟨iA, hiA⟩) := hje0
        _ = fget f sA := by rw [hiAv2]
        _ = mv := hval
    simp [hje]
  have hiAchk : iA ∈ indices.filter (fun i =>
      ((nbrs.getD i (0, 0)).1 - cell.1 == (mapping o).1) &&
      ((nbrs.getD i (0, 0)).2 - cell.2 == (mapping o).2)) := by
    rw [List.mem_filter]
    refine ⟨hiAidx, ?_⟩
    have hgd : nbrs.getD iA (0, 0) = sA := by
      rw [List.getD_eq_getElem?_getD, List.getElem?_eq_getElem hiA,
        Option.getD_some, hiAv]
    rw [hgd, hsA]
    simp
  have hchkne : indices.filter (fun i =>
      ((nbrs.getD i (0, 0)).1 - cell.1 == (mapping o).1) &&
      ((nbrs.getD i (0, 0)).2 - cell.2 == (mapping o).2)) ≠ [] :=
    List.ne_nil_of_mem hiAchk
  set chk := indices.filter (fun i =>
      ((nbrs.getD i (0, 0)).1 - cell.1 == (mapping o).1) &&
      ((nbrs.getD i (0, 0)).2 - cell.2 == (mapping o).2)) with hchk
  have hhead : chk.headD (indices.headD 0) ∈ chk := headD_mem hchkne _
  have hheadidx : chk.headD (indices.headD 0) ∈ indices :=
    List.mem_of_mem_filter hhead
  have hheadlt : chk.headD (indices.headD 0) < nbrs.length := by
    have := List.mem_of_mem_filter (hindices ▸ hheadidx)
    exact List.mem_range.mp this
  have hheadtest := (List.mem_filter.mp hhead).2
  have hgd2 : nbrs.getD (chk.headD (indices.headD 0)) (0, 0) = sA := by
    have h1 : ((nbrs.getD (chk.headD (indices.headD 0)) (0, 0)).1 - cell.1 =
        (mapping o).1) ∧
        ((nbrs.getD (chk.headD (indices.headD 0)) (0, 0)).2 - cell.2 =
        (mapping o).2) := by
      constructor
      · exact beq_iff_eq.mp (Bool.and_elim_left hheadtest)
      · exact beq_iff_eq.mp (Bool.and_elim_right hheadtest)
    rcases h1 with ⟨ha, hb⟩
    rw [hsA, Prod.ext_iff]
    constructor
    · show (nbrs.getD (chk.headD (indices.headD 0)) (0, 0)).1 = cell.1 + (mapping o).1
      omega
    · show (nbrs.getD (chk.headD (indices.headD 0)) (0, 0)).2 = cell.2 + (mapping o).2
      omega
  rw [hgd2]

theorem getD_range_filter_headD {α : Type} (q : α → Bool) (d : α) :
    ∀ l : List α, (∃ x ∈ l, q x) →
      some (l.getD (((List.range l.length).filter (fun i => q (l.getD i d))).headD 0) d) =
        l.find? q := by
  intro l
  induction l with
  | nil => intro hex; simp at hex
  | cons a t ih =>
    intro hex
    rw [List.length_cons, List.range_succ_eq_map, List.filter_cons]
    by_cases hqa : q a = true
    · rw [if_pos (by simpa using hqa)]
      rw [List.headD_cons, List.getD_cons_zero, List.find?_cons_of_pos _ hqa]
    · have hqa' : q a = false := by
        cases hq : q a
        · rfl
        · exact absurd hq hqa
      rw [if_neg (by simp [hqa'])]
      have hex' : ∃ x ∈ t, q x := by
        obtain ⟨x, hx, hqx⟩ := hex
        rcases List.mem_cons.mp hx with rfl | hxt
        · rw [hqx] at hqa'
          exact absurd hqa' (by simp)
        · exact ⟨x, hxt, hqx⟩
      have hfil : ((List.range t.length).map Nat.succ).filter
          (fun i => q ((a :: t).getD i d)) =
          ((List.range t.length).filter (fun i => q (t.getD i d))).map Nat.succ := by
        rw [List.filter_map]
        congr 1
      rw [hfil]
      have hLne : (List.range t.length).filter (fun i => q (t.getD i d)) ≠ [] := by
        obtain ⟨x, hxt, hqx⟩ := hex'
        obtain ⟨j, hj, hjv⟩ := List.mem_iff_getElem.mp hxt
        have hjmem2 : j ∈ (List.range t.length).filter (fun i => q (t.getD i d)) := by
          rw [List.mem_filter]
          refine ⟨List.mem_range.mpr hj, ?_⟩
          have hgd : t.getD j d = x := by
            rw [List.getD_eq_getElem?_getD, List.getElem?_eq_getElem hj,
              Option.getD_some, hjv]
          rw [hgd, hqx]
        exact List.ne_nil_of_mem hjmem2
      rcases hL : (List.range t.length).filter (fun i => q (t.getD i d)) with _ | ⟨j0, t0⟩
      · exact absurd hL hLne
      · rw [List.map_cons, List.headD_cons, List.getD_cons_succ]
        rw [List.find?_cons_of_neg _ (by simp [hqa'])]
        have hIH := ih hex'
        rw [hL, List.headD_cons] at hIH
        exact hIH

theorem selectNext_scan_first (w h : Int) (f : List (List Int)) (o : DIRECTIONS)
    (current cell : Cell) (ignore : List Cell) (mv : Int)
    (hm : (((neighbors w h current).filter (fun x => decide (x ∉ ignore))).map
      (fget f)).min? = some mv)
    (hns : ∀ x ∈ (neighbors w h current).filter (fun x => decide (x ∉ ignore)),
      fget f x = mv →
      ¬(x.1 - cell.1 = (mapping o).1 ∧ x.2 - cell.2 = (mapping o).2)) :
    selectNext w h f o current cell ignore =
      ((neighbors w h current).filter (fun x => decide (x ∉ ignore))).find?
        (fun x => fget f x == mv) := by
  simp only [selectNext, hm]
  set nbrs := (neighbors w h current).filter (fun x => decide (x ∉ ignore)) with hnbrs
  set nvals := nbrs.map (fget f) with hnvals
  set indices := (List.range nbrs.length).filter (fun i => nvals.getD i 0 == mv)
    with hindices
  have hvals_getD : ∀ i, i ∈ List.range nbrs.length →
      (nvals.getD i 0 == mv) = (fget f (nbrs.getD i (0, 0)) == mv) := by
    intro i hi
    have hilt : i < nbrs.length := List.mem_range.mp hi
    have hiv : i < nvals.length := by
      rw [hnvals, List.length_map]
      exact hilt
    have h1 : nvals.getD i 0 = fget f (nbrs.getD i (0, 0)) := by
      rw [List.getD_eq_getElem?_getD, List.getElem?_eq_getElem hiv, Option.getD_some]
      rw [List.getD_eq_getElem?_getD, List.getElem?_eq_getElem hilt, Option.getD_some]
      simp [hnvals]
    rw [h1]
  have hchk : indices.filter (fun i =>
      ((nbrs.getD i (0, 0)).1 - cell.1 == (mapping o).1) &&
      ((nbrs.getD i (0, 0)).2 - cell.2 == (mapping o).2)) = [] := by
    rw [List.filter_eq_nil_iff]
    intro i hi
    have hiidx := hi
    rw [hindices, List.mem_filter] at hiidx
    obtain ⟨hir, hival⟩ := hiidx
    have hilt : i < nbrs.length := List.mem_range.mp hir
    have hxmem : nbrs.getD i (0, 0) ∈ nbrs := by
      rw [List.getD_eq_getElem?_getD, List.getElem?_eq_getElem hilt, Option.getD_some]
      exact List.getElem_mem hilt
    have hxval : fget f (nbrs.getD i (0, 0)) = mv := by
      have := hvals_getD i hir
      rw [this] at hival
      exact beq_iff_eq.mp hival
    have := hns (nbrs.getD i (0, 0)) hxmem hxval
    simp only [Bool.and_eq_true, beq_iff_eq, not_and] at this ⊢
    intro h1 h2
    exact this h1 h2
  rw [hchk, List.headD_nil]
  have hindices2 : indices = (List.range nbrs.length).filter
      (fun i => fget f (nbrs.getD i (0, 0)) == mv) := by
    rw [hindices]
    exact List.filter_congr hvals_getD
  rw [hindices2]
  have hex : ∃ x ∈ nbrs, (fget f x == mv) := by
    have hmv : mv ∈ nvals := int_min?_mem hm
    rw [hnvals, List.mem_map] at hmv
    obtain ⟨x, hx, hxv⟩ := hmv
    exact ⟨x, hx, by simp [hxv]⟩
  exact getD_range_filter_headD (fun x => fget f x == mv) (0, 0) nbrs hex

theorem findCell_safety (w h : Int) (walls : WallsT) (o : DIRECTIONS)
    (current : Cell) (ff : Nat) :
    ∀ (rf : Nat) (f : List (List Int)) (cell : Cell) (ignore : List Cell)
      (f' : List (List Int)) (r : Cell),
      findCell w h walls o current ff rf f cell ignore = some (f', r) →
      r ∈ neighbors w h current ∧ r ∉ ignore ∧ r ∉ wallsGet walls cell := by
  intro rf
  induction rf with
  | zero =>
    intro f cell ignore f' r hr
    simp [findCell] at hr
  | succ rf ih =>
    intro f cell ignore f' r hr
    simp only [findCell] at hr
    rcases hsel : selectNext w h f o current cell ignore with _ | nc <;> rw [hsel] at hr
    · simp at hr
    · simp only at hr
      by_cases hw : nc ∈ wallsGet walls cell
      · rw [if_pos hw] at hr
        rcases hrun : floodRun w h walls ff f [cell] with _ | f2 <;> rw [hrun] at hr
        · simp at hr
        · simp only at hr
          obtain ⟨m1, m2, m3⟩ := ih f2 cell (nc :: ignore) f' r hr
          exact ⟨m1, fun hri => m2 (List.mem_cons_of_mem nc hri), m3⟩
      · rw [if_neg hw] at hr
        have hm := selectNext_mem w h f o current cell ignore nc hsel
        have hrnc : r = nc := by
          by_cases hle : fget f cell ≤ fget f nc
          · rw [if_pos hle] at hr
            rcases Option.map_eq_some'.mp hr with ⟨f2, _, heq⟩
            injection heq with heq1 heq2
            exact heq2.symm
          · rw [if_neg hle] at hr
            cases hr
            rfl
        subst hrnc
        have hmem := List.mem_filter.mp hm.1
        refine ⟨hmem.1, ?_, hw⟩
        simpa using hmem.2

theorem findCell_open_selection (w h : Int) (walls : WallsT) (o : DIRECTIONS)
    (current : Cell) (ff rf : Nat) (f : List (List Int)) (cell : Cell)
    (ignore : List Cell) (nc : Cell) (f' : List (List Int)) (r : Cell)
    (hsel : selectNext w h f o current cell ignore = some nc)
    (hw : nc ∉ wallsGet walls cell)
    (hr : findCell w h walls o current ff (rf + 1) f cell ignore = some (f', r)) :
    r = nc ∧ ∀ x ∈ neighbors w h current, x ∉ ignore → x ∉ wallsGet walls cell →
      fget f r ≤ fget f x := by
  simp only [findCell, hsel] at hr
  rw [if_neg hw] at hr
  have hm := selectNext_mem w h f o current cell ignore nc hsel
  have hrnc : r = nc := by
    by_cases hle : fget f cell ≤ fget f nc
    · rw [if_pos hle] at hr
      rcases Option.map_eq_some'.mp hr with ⟨f2, _, heq⟩
      injection heq with heq1 heq2
      exact heq2.symm
    · rw [if_neg hle] at hr
      cases hr
      rfl
  subst hrnc
  refine ⟨rfl, ?_⟩
  intro x hx hxi _hxw
  exact hm.2 x (List.mem_filter.mpr ⟨hx, by simpa using hxi⟩)

/-- C8 (counterexample): with the current cell `(1, 1)` facing East on the
4x4 state `floodC8`/`wallsC8` and an empty ignore set, `find_cell` first
selects the walled neighbour `(0, 1)` (field value 0), re-floods — raising
`(1, 0)` from 2 to 5 — and then returns `(1, 2)`; but under the entry field
the open neighbour `(1, 0)` (not ignored, not blocked) has value 2, strictly
below the returned cell's value 3, so the returned cell is not minimal among
the open neighbours under the field the call was given. -/
theorem find_cell_not_entry_minimal_counterexample :
    findCell 4 4 wallsC8 .EAST (1, 1) 20 5 floodC8 (1, 1) [] =
      some (floodC8r, (1, 2)) ∧
    ((1, 0) : Cell) ∈ neighbors 4 4 (1, 1) ∧
    ((1, 0) : Cell) ∉ wallsGet wallsC8 (1, 1) ∧
    fget floodC8 (1, 0) < fget floodC8 (1, 2) :=
  ⟨by decide, by decide, by decide, by decide⟩

/-- C8 (amended): whenever `find_cell` returns, the returned cell is a
neighbour of the current cell, outside the ignore set and never in the
current cell's blocked set; when the minimum-value non-ignored neighbour
selected under the entry field is open, it is the cell returned and its
entry-field value is minimal among the open non-ignored neighbours; the
selection prefers the neighbour straight ahead in the current orientation
among the minima, and otherwise takes the first minimum in scan order.
After an intervening re-flood (triggered when the selected neighbour is
walled) minimality holds for the re-flooded field at selection time, not
necessarily for the entry field, as the counterexample shows. -/
theorem find_cell_spec :
    (∀ (w h : Int) (walls : WallsT) (o : DIRECTIONS) (current : Cell) (ff rf : Nat)
       (f : List (List Int)) (cell : Cell) (ignore : List Cell)
       (f' : List (List Int)) (r : Cell),
       findCell w h walls o current ff rf f cell ignore = some (f', r) →
       r ∈ neighbors w h current ∧ r ∉ ignore ∧ r ∉ wallsGet walls cell) ∧
    (∀ (w h : Int) (walls : WallsT) (o : DIRECTIONS) (current : Cell) (ff rf : Nat)
       (f : List (List Int)) (cell : Cell) (ignore : List Cell) (nc : Cell)
       (f' : List (List Int)) (r : Cell),
       selectNext w h f o current cell ignore = some nc →
       nc ∉ wallsGet walls cell →
       findCell w h walls o current ff (rf + 1) f cell ignore = some (f', r) →
       r = nc ∧ ∀ x ∈ neighbors w h current, x ∉ ignore → x ∉ wallsGet walls cell →
         fget f r ≤ fget f x) ∧
    (∀ (w h : Int) (f : List (List Int)) (o : DIRECTIONS) (current cell : Cell)
       (ignore : List Cell) (mv : Int),
       (((neighbors w h current).filter (fun x => decide (x ∉ ignore))).map
         (fget f)).min? = some mv →
       (cell.1 + (mapping o).1, cell.2 + (mapping o).2) ∈
         (neighbors w h current).filter (fun x => decide (x ∉ ignore)) →
       fget f (cell.1 + (mapping o).1, cell.2 + (mapping o).2) = mv →
       selectNext w h f o current cell ignore =
         some (cell.1 + (mapping o).1, cell.2 + (mapping o).2)) ∧
    (∀ (w h : Int) (f : List (List Int)) (o : DIRECTIONS) (current cell : Cell)
       (ignore : List Cell) (mv : Int),
       (((neighbors w h current).filter (fun x => decide (x ∉ ignore))).map
         (fget f)).min? = some mv →
       (∀ x ∈ (neighbors w h current).filter (fun x => decide (x ∉ ignore)),
         fget f x = mv →
         ¬(x.1 - cell.1 = (mapping o).1 ∧ x.2 - cell.2 = (mapping o).2)) →
       selectNext w h f o current cell ignore =
         ((neighbors w h current).filter (fun x => decide (x ∉ ignore))).find?
           (fun x => fget f x == mv)) :=
  ⟨findCell_safety, findCell_open_selection, selectNext_straight, selectNext_scan_first⟩

/-- Witness for `find_cell_spec` at a concrete open selection. -/
theorem find_cell_spec_witness :
    selectNext 2 2 [[5, 1], [1, 2]] .EAST (0, 0) (0, 0) [] = some (0, 1) ∧
    ((0, 1) : Cell) ∉ wallsGet [] (0, 0) ∧
    findCell 2 2 [] .EAST (0, 0) 3 1 [[5, 1], [1, 2]] (0, 0) [] =
      some ([[5, 1], [1, 2]], (0, 1)) ∧
    fget [[5, 1], [1, 2]] (0, 1) ≤ fget [[5, 1], [1, 2]] (1, 0) :=
  ⟨by decide, by decide, by decide,
    (find_cell_spec.2.1 2 2 [] .EAST (0, 0) 3 0 [[5, 1], [1, 2]] (0, 0) [] (0, 1)
        [[5, 1], [1, 2]] (0, 1) (by decide) (by decide) (by decide)).2 (1, 0)
      (by decide) (by decide) (by decide)⟩

end FloodFillMMS
